import Mathlib

/- Shallow embedding of the polymarket-copy-trade repository.

   Conventions used throughout:
   * Python floats are modelled as rationals (ℚ);
   * pandas timestamps are modelled as integer epoch seconds (ℤ), with the
     calendar day of a timestamp obtained by floor division by 86400;
   * Python `round(x, n)` is modelled by round-to-nearest on ℚ (the two
     differ only on exact ties, which no claim here depends on);
   * Python dicts that are used as finite maps are modelled as association
     lists in insertion order;
   * CSV rows arrive already parsed into typed records; rows the Python
     code drops inside `try/except` (unparseable timestamps) are modelled
     by `Option` fields. -/

namespace PMScan

/-- Models Python `round(x, n)`: round to `n` decimal digits. -/
def roundTo (n : ℕ) (q : ℚ) : ℚ := ((round (q * (10 : ℚ) ^ n) : ℤ) : ℚ) / (10 : ℚ) ^ n

/-- Stable insertion into an ascending-sorted list: `x` is placed before the
first element it strictly precedes, hence after any element comparing equal,
which matches the stability of Python's sorting. -/
def insertAsc (lt : α → α → Bool) (x : α) : List α → List α
  | [] => [x]
  | y :: ys => if lt x y then x :: y :: ys else y :: insertAsc lt x ys

/-- Stable sort by a strict comparison; models Python `sorted`. -/
def sortAsc (lt : α → α → Bool) (l : List α) : List α :=
  l.foldl (fun acc x => insertAsc lt x acc) []

/-- Maximum of a list of rationals; models Python `max` (the code only calls
it on nonempty lists, the default value 0 is never relevant). -/
def list_max : List ℚ → ℚ
  | [] => 0
  | x :: xs => xs.foldl max x

/-- Models Python `statistics.median`: sort, take the middle element (odd
length) or the mean of the two middle elements (even length). -/
def median (xs : List ℚ) : ℚ :=
  let s := sortAsc (fun a b => decide (a < b)) xs
  let n := s.length
  if n % 2 = 1 then s.getD (n / 2) 0
  else (s.getD (n / 2 - 1) 0 + s.getD (n / 2) 0) / 2

/-- Configuration of the insider analyzer (insider_analyzer.py, AnalysisConfig). -/
structure AnalysisConfig where
  min_insider_score : ℕ := 80
  min_wallet_volume : ℚ := 10000
  lookback_days : ℤ := 30
deriving Repr

/-- Profile of a wallet's activity on a specific day
(insider_analyzer.py, DailyWalletProfile). -/
structure DailyWalletProfile where
  address : String
  date : ℤ
  buy_vol_yes : ℚ := 0
  buy_vol_no : ℚ := 0
  trade_sizes : List ℚ := []
  first_ts : Option ℤ := none
  last_ts : Option ℤ := none
deriving Repr

def DailyWalletProfile.total_volume (p : DailyWalletProfile) : ℚ :=
  p.buy_vol_yes + p.buy_vol_no

def DailyWalletProfile.direction (p : DailyWalletProfile) : String :=
  if p.buy_vol_no < p.buy_vol_yes then "YES"
  else if p.buy_vol_yes < p.buy_vol_no then "NO"
  else "NEUTRAL"

def DailyWalletProfile.conviction (p : DailyWalletProfile) : ℚ :=
  max p.buy_vol_yes p.buy_vol_no

/-- Component 1 of `calculate_insider_score`: conviction tier (0-40 points). -/
def conviction_points (p : DailyWalletProfile) : ℕ :=
  if 100000 ≤ p.conviction then 40
  else if 50000 ≤ p.conviction then 30
  else if 20000 ≤ p.conviction then 20
  else if 10000 ≤ p.conviction then 10
  else 0

/-- Component 2 of `calculate_insider_score`: trade-size anomaly (0-30 points).
Only computed when the wallet made at least two trades and the median trade
size is positive. -/
def size_points (p : DailyWalletProfile) : ℕ :=
  if 2 ≤ p.trade_sizes.length then
    if 0 < median p.trade_sizes then
      if 50 < list_max p.trade_sizes / median p.trade_sizes then 30
      else if 20 < list_max p.trade_sizes / median p.trade_sizes then 20
      else if 10 < list_max p.trade_sizes / median p.trade_sizes then 10
      else 0
    else 0
  else 0

/-- Component 3 of `calculate_insider_score`: timing burst (0-30 points),
from the hour span between the first and last trade of the day. -/
def timing_points (p : DailyWalletProfile) : ℕ :=
  match p.first_ts, p.last_ts with
  | some f, some l =>
    if ((l - f : ℤ) : ℚ) / 3600 ≤ 2 ∧ 20000 < p.total_volume then 30
    else if ((l - f : ℤ) : ℚ) / 3600 ≤ 6 then 20
    else if ((l - f : ℤ) : ℚ) / 3600 ≤ 12 then 10
    else 0
  | _, _ => 0

/-- Component 4 of `calculate_insider_score`: directional conviction
(0-20 points), from the one-sidedness ratio of buy volume. -/
def directional_points (p : DailyWalletProfile) : ℕ :=
  if 0 < p.buy_vol_yes + p.buy_vol_no then
    if (9 : ℚ) / 10 < |p.buy_vol_yes - p.buy_vol_no| / (p.buy_vol_yes + p.buy_vol_no) then 20
    else if (7 : ℚ) / 10 < |p.buy_vol_yes - p.buy_vol_no| / (p.buy_vol_yes + p.buy_vol_no) then 10
    else 0
  else 0

/-- Models `calculate_insider_score` (insider_analyzer.py). The Python
function accumulates the four independent component contributions into
`score` one after the other; it also returns a `metrics` dict that is purely
diagnostic (never read by the analysis pipeline) and is omitted here. -/
def calculate_insider_score (p : DailyWalletProfile) : ℕ :=
  conviction_points p + size_points p + timing_points p + directional_points p

/-- C1: calculate_insider_score is the sum of four non-negative components -
conviction tier (at most 40), size-anomaly (at most 30), timing burst (at
most 30) and directional (at most 20) - hence the score lies in [0, 120].
Lower bounds of 0 hold by the ℕ typing: the Python code only ever adds
non-negative literals to an initial score of 0. -/
theorem calculate_insider_score_bounds (p : DailyWalletProfile) :
    calculate_insider_score p =
      conviction_points p + size_points p + timing_points p + directional_points p ∧
    conviction_points p ≤ 40 ∧ size_points p ≤ 30 ∧
    timing_points p ≤ 30 ∧ directional_points p ≤ 20 ∧
    calculate_insider_score p ≤ 120 := by
  have hc : conviction_points p ≤ 40 := by
    unfold conviction_points; split_ifs <;> norm_num
  have hs : size_points p ≤ 30 := by
    unfold size_points; split_ifs <;> norm_num
  have ht : timing_points p ≤ 30 := by
    unfold timing_points
    rcases p.first_ts with _ | f <;> rcases p.last_ts with _ | l <;> simp <;>
      split_ifs <;> norm_num
  have hd : directional_points p ≤ 20 := by
    unfold directional_points; split_ifs <;> norm_num
  refine ⟨rfl, hc, hs, ht, hd, ?_⟩
  unfold calculate_insider_score
  omega

/-- Models Python `str.lower` (ASCII, as used on hex addresses). -/
def lowerStr (s : String) : String := ⟨s.data.map Char.toLower⟩

/-- Models Python `str.upper`. -/
def upperStr (s : String) : String := ⟨s.data.map Char.toUpper⟩

/-- Models Python `str.strip`: remove leading and trailing whitespace. -/
def stripStr (s : String) : String :=
  ⟨((s.data.dropWhile Char.isWhitespace).reverse.dropWhile Char.isWhitespace).reverse⟩

/-- Python's `str(x).lower().strip()` applied to an address field. -/
def normAddr (s : String) : String := stripStr (lowerStr s)

/-- A parsed row of a market trades CSV as consumed by `build_daily_profiles`.
`ts` is `none` for an unparseable timestamp (pandas NaT after coercion). -/
structure TradeRow where
  maker : String
  taker : String
  usd_amount : ℚ
  nonusdc_side : String
  maker_direction : String
  ts : Option ℤ
deriving Repr

/-- The one address a trade row credits with a buy: the maker iff
maker_direction is BUY, otherwise the taker (exactly one of the two `is_buy`
flags in the Python loop is true). Returns `none` when that address is
`''`/`'nan'`/`'none'`, in which case the row contributes nothing. -/
def credited (t : TradeRow) : Option String :=
  let a := if stripStr (upperStr t.maker_direction) = "BUY"
           then normAddr t.maker else normAddr t.taker
  if a = "nan" ∨ a = "none" ∨ a = "" then none else some a

/-- Calendar-day index of an epoch-second timestamp; models
`ts.strftime('%Y-%m-%d')` bucketing of timezone-naive timestamps. -/
def dayOf (ts : ℤ) : ℤ := Int.fdiv ts 86400

/-- Lookup in an insertion-ordered association list (Python dict read). -/
def alFind [DecidableEq κ] (k : κ) : List (κ × β) → Option β
  | [] => none
  | e :: rest => if e.1 = k then some e.2 else alFind k rest

/-- Upsert in an insertion-ordered association list (Python dict write):
an existing key keeps its position, a new key is appended at the end. -/
def alUpd [DecidableEq κ] (k : κ) (f : Option β → β) : List (κ × β) → List (κ × β)
  | [] => [(k, f none)]
  | e :: rest => if e.1 = k then (e.1, f (some e.2)) :: rest else e :: alUpd k f rest

/-- Wallet profiles of one day, keyed by address (inner Python dict). -/
abbrev AddrMap := List (String × DailyWalletProfile)

/-- Daily profiles keyed by day (outer Python defaultdict). -/
abbrev DayMap := List (ℤ × AddrMap)

/-- One iteration of the inner update in `build_daily_profiles`: append the
trade size, update first/last timestamps, and add the USD amount to the
YES or NO buy volume according to the traded token side. -/
def touchProfile (usd : ℚ) (side : String) (ts : ℤ) (p : DailyWalletProfile) :
    DailyWalletProfile :=
  let p1 := { p with trade_sizes := p.trade_sizes ++ [usd] }
  let p2 := { p1 with
    first_ts := some (match p1.first_ts with
      | none => ts
      | some f => if ts < f then ts else f) }
  let p3 := { p2 with
    last_ts := some (match p2.last_ts with
      | none => ts
      | some l => if l < ts then ts else l) }
  if side = "token1" then { p3 with buy_vol_yes := p3.buy_vol_yes + usd }
  else { p3 with buy_vol_no := p3.buy_vol_no + usd }

/-- Effect of one CSV row on the day-keyed profile map. Rows with an
unparseable timestamp or an invalid credited address are skipped, mirroring
the `continue` branches of the Python loop. -/
def processRow (m : DayMap) (t : TradeRow) : DayMap :=
  match t.ts with
  | none => m
  | some ts =>
    match credited t with
    | none => m
    | some a =>
      alUpd (dayOf ts) (fun am =>
        alUpd a (fun p =>
          touchProfile t.usd_amount (stripStr t.nonusdc_side) ts
            (p.getD { address := a, date := dayOf ts })) (am.getD [])) m

/-- Models `InsiderDirectionAnalyzer.build_daily_profiles`: fold every trade
row into the per-day, per-wallet profile map. -/
def build_daily_profiles (trades : List TradeRow) : DayMap :=
  trades.foldl processRow []

/-- Two-level lookup into the result of `build_daily_profiles`. -/
def profileAt (m : DayMap) (d : ℤ) (a : String) : Option DailyWalletProfile :=
  (alFind d m).bind (alFind a)

/-- One wallet entry of a daily insider list (the dicts appended to
`day_insiders` in `analyze_daily`; the diagnostic `metrics` dict is omitted). -/
structure InsiderRec where
  address : String
  score : ℕ
  direction : String
  conviction : ℚ
deriving Repr

/-- The wallet filter of `analyze_daily`: keep a wallet iff its daily volume
reaches `min_wallet_volume` and its insider score reaches
`min_insider_score`. -/
def day_insiders (cfg : AnalysisConfig) (ws : AddrMap) : List InsiderRec :=
  ws.filterMap fun av =>
    if av.2.total_volume < cfg.min_wallet_volume then none
    else if cfg.min_insider_score ≤ calculate_insider_score av.2 then
      some ⟨av.1, calculate_insider_score av.2, av.2.direction, av.2.conviction⟩
    else none

def yes_conviction_sum (ins : List InsiderRec) : ℚ :=
  ((ins.filter fun w => decide (w.direction = "YES")).map (·.conviction)).sum

def no_conviction_sum (ins : List InsiderRec) : ℚ :=
  ((ins.filter fun w => decide (w.direction = "NO")).map (·.conviction)).sum

/-- The per-day direction score of `analyze_daily` before rounding:
(yes conviction - no conviction) / total conviction, 0 when the total is 0. -/
def day_direction_score (ins : List InsiderRec) : ℚ :=
  if 0 < yes_conviction_sum ins + no_conviction_sum ins then
    (yes_conviction_sum ins - no_conviction_sum ins) /
      (yes_conviction_sum ins + no_conviction_sum ins)
  else 0

/-- The five-way signal classification used for a single day. -/
def day_signal (x : ℚ) : String :=
  if 3 / 10 < x then "STRONG_YES"
  else if 1 / 10 < x then "YES"
  else if x < -(3 / 10) then "STRONG_NO"
  else if x < -(1 / 10) then "NO"
  else "NEUTRAL"

/-- The record `analyze_daily` appends for one day. -/
structure DayResult where
  date : ℤ
  insider_count : ℕ
  yes_insiders : ℕ
  no_insiders : ℕ
  yes_conviction : ℚ
  no_conviction : ℚ
  direction_score : ℚ
  signal : String
  top_insiders : List InsiderRec
deriving Repr

/-- The per-day computation inside the loop of `analyze_daily`. -/
def day_result (cfg : AnalysisConfig) (d : ℤ) (ws : AddrMap) : DayResult :=
  { date := d
    insider_count := (day_insiders cfg ws).length
    yes_insiders := (day_insiders cfg ws).countP fun w => decide (w.direction = "YES")
    no_insiders := (day_insiders cfg ws).countP fun w => decide (w.direction = "NO")
    yes_conviction := roundTo 0 (yes_conviction_sum (day_insiders cfg ws))
    no_conviction := roundTo 0 (no_conviction_sum (day_insiders cfg ws))
    direction_score := roundTo 3 (day_direction_score (day_insiders cfg ws))
    signal := day_signal (day_direction_score (day_insiders cfg ws))
    top_insiders :=
      (sortAsc (fun x y => decide (y.score < x.score)) (day_insiders cfg ws)).take 5 }

/-- Models `InsiderDirectionAnalyzer.analyze_daily`: one result per day, in
ascending day order (Python iterates `sorted(daily_profiles.keys())`). -/
def analyze_daily (cfg : AnalysisConfig) (dm : DayMap) : List DayResult :=
  (sortAsc (fun a b => decide (a.1 < b.1)) dm).map fun e => day_result cfg e.1 e.2

/-- The recency weight of `get_aggregate_signal`, from days-from-end. -/
def recency_weight (dfe : ℕ) : ℚ :=
  if dfe = 0 then 3
  else if dfe ≤ 2 then 2
  else if dfe ≤ 6 then 3 / 2
  else 1

/-- Running weighted-score accumulation of the loop in
`get_aggregate_signal` (`n` is the total day count, `i` the loop index). -/
def weighted_score_aux (n i : ℕ) : List DayResult → ℚ
  | [] => 0
  | r :: rs => r.direction_score * recency_weight (n - 1 - i) + weighted_score_aux n (i + 1) rs

/-- Running total-weight accumulation of the same loop. -/
def total_weight_aux (n i : ℕ) : List DayResult → ℚ
  | [] => 0
  | _ :: rs => recency_weight (n - 1 - i) + total_weight_aux n (i + 1) rs

def weighted_score (rs : List DayResult) : ℚ := weighted_score_aux rs.length 0 rs

def total_weight (rs : List DayResult) : ℚ := total_weight_aux rs.length 0 rs

/-- The time-weighted average direction before the last-day blend. -/
def avg_direction_raw (rs : List DayResult) : ℚ :=
  if 0 < total_weight rs then weighted_score rs / total_weight rs else 0

/-- The aggregate direction after the last-day burst blend: when the last
day's score has magnitude above 0.5 and at least 5 insiders, average the
weighted score with the last day's score. -/
def avg_direction (rs : List DayResult) : ℚ :=
  match rs.getLast? with
  | none => avg_direction_raw rs
  | some last =>
    if 1 / 2 < |last.direction_score| ∧ 5 ≤ last.insider_count then
      (avg_direction_raw rs + last.direction_score) / 2
    else avg_direction_raw rs

/-- The aggregate dict returned by `get_aggregate_signal` (nonempty case). -/
structure AggregateSignal where
  signal : String
  predicted : String
  direction_score : ℚ
  yes_days : ℕ
  no_days : ℕ
  neutral_days : ℕ
  total_insiders : ℕ
  last_day_score : ℚ
  last_day_insiders : ℕ
deriving Repr

/-- Return shape of `get_aggregate_signal`: the NO_DATA dict for an empty
input, otherwise the full aggregate record. -/
inductive AggOut where
  | no_data
  | sig (s : AggregateSignal)
deriving Repr

/-- The five-way aggregate classification, giving (signal, predicted). -/
def agg_signal_of (x : ℚ) : String × String :=
  if 3 / 10 < x then ("STRONG_YES", "YES")
  else if 1 / 10 < x then ("YES", "YES")
  else if x < -(3 / 10) then ("STRONG_NO", "NO")
  else if x < -(1 / 10) then ("NO", "NO")
  else ("NEUTRAL", "NEUTRAL")

/-- Models `InsiderDirectionAnalyzer.get_aggregate_signal`. -/
def get_aggregate_signal (rs : List DayResult) : AggOut :=
  match rs with
  | [] => .no_data
  | _ :: _ =>
    .sig
      { signal := (agg_signal_of (avg_direction rs)).1
        predicted := (agg_signal_of (avg_direction rs)).2
        direction_score := roundTo 4 (avg_direction rs)
        yes_days := rs.countP fun r => decide (r.signal = "YES" ∨ r.signal = "STRONG_YES")
        no_days := rs.countP fun r => decide (r.signal = "NO" ∨ r.signal = "STRONG_NO")
        neutral_days := rs.countP fun r => decide (r.signal = "NEUTRAL")
        total_insiders := (rs.map (·.insider_count)).sum
        last_day_score := roundTo 4 ((rs.getLast?).elim 0 (·.direction_score))
        last_day_insiders := (rs.getLast?).elim 0 (·.insider_count) }

/-- Return shape of `analyze_market`. -/
inductive MarketAnalysis where
  | no_data (reason : String)
  | res (agg : AggregateSignal) (analyzed_trades : ℕ) (days_analyzed : ℕ)
      (daily_results : Option (List DayResult))
deriving Repr

/-- The time-window predicate of `analyze_market`: keep a trade iff its
timestamp lies in [closed_time - lookback_days, closed_time - 1 hour).
Rows whose timestamp failed to parse (NaT) compare false in pandas and are
dropped. -/
def in_window (cfg : AnalysisConfig) (c : ℤ) (t : TradeRow) : Bool :=
  match t.ts with
  | none => false
  | some s => decide (c - cfg.lookback_days * 86400 ≤ s) && decide (s < c - 3600)

/-- Models `InsiderDirectionAnalyzer.analyze_market`: optional window filter,
minimum-trades guard, then the profile/daily/aggregate pipeline. The
`.no_data "no_daily_data"` arm of the final match is unreachable (the daily
list is nonempty there) but keeps the translation total. -/
def analyze_market (cfg : AnalysisConfig) (trades : List TradeRow)
    (closed_time : Option ℤ) (return_daily : Bool) : MarketAnalysis :=
  let tr := match closed_time with
    | some c => trades.filter (in_window cfg c)
    | none => trades
  if tr.length < 50 then .no_data "insufficient_trades"
  else
    let dr := analyze_daily cfg (build_daily_profiles tr)
    if dr.isEmpty then .no_data "no_daily_data"
    else
      match get_aggregate_signal dr with
      | .no_data => .no_data "no_daily_data"
      | .sig s => .res s tr.length dr.length (if return_daily then some dr else none)

/-! Generic helper lemmas about the sorting and list utilities. -/

theorem mem_insertAsc {lt : α → α → Bool} {y x : α} {l : List α} :
    x ∈ insertAsc lt y l ↔ x = y ∨ x ∈ l := by
  induction l with
  | nil => simp [insertAsc]
  | cons z zs ih =>
    by_cases h : lt y z
    · simp [insertAsc, h]
    · simp only [insertAsc, h, Bool.false_eq_true, if_false, List.mem_cons, ih]
      tauto

theorem mem_foldl_insertAsc {lt : α → α → Bool} {l : List α} {x : α} :
    ∀ {acc : List α}, x ∈ l.foldl (fun a e => insertAsc lt e a) acc ↔ x ∈ acc ∨ x ∈ l := by
  induction l with
  | nil => simp
  | cons z zs ih =>
    intro acc
    simp only [List.foldl_cons, ih, mem_insertAsc, List.mem_cons]
    tauto

theorem mem_sortAsc {lt : α → α → Bool} {l : List α} {x : α} :
    x ∈ sortAsc lt l ↔ x ∈ l := by
  unfold sortAsc; rw [mem_foldl_insertAsc]; simp

theorem mem_of_getLast?_eq {l : List α} {x : α} (h : l.getLast? = some x) : x ∈ l := by
  induction l with
  | nil => simp at h
  | cons a l ih =>
    cases l with
    | nil => simp_all
    | cons b t =>
      rw [List.getLast?_cons_cons] at h
      exact List.mem_cons_of_mem a (ih h)

/-! Bounds for the rounding helper. -/

theorem roundTo_le_one {n : ℕ} {q : ℚ} (h : q ≤ 1) : roundTo n q ≤ 1 := by
  have hp : (0 : ℚ) < 10 ^ n := by positivity
  unfold roundTo
  rw [div_le_one hp]
  have h2 : round (q * 10 ^ n) ≤ round ((10 : ℚ) ^ n) := by
    rw [round_eq, round_eq]
    refine Int.floor_mono ?_
    nlinarith
  have h3 : round ((10 : ℚ) ^ n) = (10 ^ n : ℤ) := by
    rw [show ((10 : ℚ) ^ n) = ((10 ^ n : ℤ) : ℚ) by push_cast; ring]
    exact round_intCast _
  calc ((round (q * 10 ^ n) : ℤ) : ℚ) ≤ ((round ((10 : ℚ) ^ n) : ℤ) : ℚ) := by exact_mod_cast h2
    _ = ((10 ^ n : ℤ) : ℚ) := by rw [h3]
    _ = 10 ^ n := by push_cast; ring

theorem neg_one_le_roundTo {n : ℕ} {q : ℚ} (h : -1 ≤ q) : -1 ≤ roundTo n q := by
  have hp : (0 : ℚ) < 10 ^ n := by positivity
  unfold roundTo
  rw [le_div_iff hp]
  have h2 : round (-(10 : ℚ) ^ n) ≤ round (q * 10 ^ n) := by
    rw [round_eq, round_eq]
    refine Int.floor_mono ?_
    nlinarith
  have h3 : round (-(10 : ℚ) ^ n) = (-(10 ^ n) : ℤ) := by
    rw [show (-(10 : ℚ) ^ n) = ((-(10 ^ n) : ℤ) : ℚ) by push_cast; ring]
    exact round_intCast _
  have : ((-(10 ^ n) : ℤ) : ℚ) ≤ ((round (q * 10 ^ n) : ℤ) : ℚ) := by
    exact_mod_cast h3 ▸ h2
  push_cast at this ⊢
  linarith

/-! Non-negativity of the conviction sums in `analyze_daily`. -/

theorem day_insiders_conviction_nonneg {cfg : AnalysisConfig}
    (h : 0 ≤ cfg.min_wallet_volume) {ws : AddrMap} {w : InsiderRec}
    (hw : w ∈ day_insiders cfg ws) : 0 ≤ w.conviction := by
  rcases List.mem_filterMap.mp hw with ⟨av, _, hav⟩
  by_cases h1 : av.2.total_volume < cfg.min_wallet_volume
  · simp [h1] at hav
  by_cases h2 : cfg.min_insider_score ≤ calculate_insider_score av.2
  · simp only [h1, if_false, h2, if_true, Option.some.injEq] at hav
    have htot : 0 ≤ av.2.buy_vol_yes + av.2.buy_vol_no := by
      have := not_lt.mp h1
      unfold DailyWalletProfile.total_volume at this
      linarith
    have hmax : 0 ≤ max av.2.buy_vol_yes av.2.buy_vol_no := by
      have ha := le_max_left av.2.buy_vol_yes av.2.buy_vol_no
      have hb := le_max_right av.2.buy_vol_yes av.2.buy_vol_no
      linarith
    rw [← hav]
    exact hmax
  · simp [h1, h2] at hav

theorem yes_conviction_sum_nonneg {ins : List InsiderRec}
    (h : ∀ w ∈ ins, 0 ≤ w.conviction) : 0 ≤ yes_conviction_sum ins := by
  refine List.sum_nonneg ?_
  intro x hx
  rcases List.mem_map.mp hx with ⟨w, hw, rfl⟩
  exact h w (List.mem_of_mem_filter hw)

theorem no_conviction_sum_nonneg {ins : List InsiderRec}
    (h : ∀ w ∈ ins, 0 ≤ w.conviction) : 0 ≤ no_conviction_sum ins := by
  refine List.sum_nonneg ?_
  intro x hx
  rcases List.mem_map.mp hx with ⟨w, hw, rfl⟩
  exact h w (List.mem_of_mem_filter hw)

theorem day_direction_score_bounds {ins : List InsiderRec}
    (hy : 0 ≤ yes_conviction_sum ins) (hn : 0 ≤ no_conviction_sum ins) :
    -1 ≤ day_direction_score ins ∧ day_direction_score ins ≤ 1 := by
  unfold day_direction_score
  split_ifs with h
  · constructor
    · rw [le_div_iff h]; linarith
    · rw [div_le_one h]; linarith
  · norm_num

theorem day_result_score_bounds {cfg : AnalysisConfig}
    (h : 0 ≤ cfg.min_wallet_volume) (d : ℤ) (ws : AddrMap) :
    -1 ≤ (day_result cfg d ws).direction_score ∧ (day_result cfg d ws).direction_score ≤ 1 := by
  have hconv : ∀ w ∈ day_insiders cfg ws, 0 ≤ w.conviction :=
    fun w hw => day_insiders_conviction_nonneg h hw
  have hb := day_direction_score_bounds (yes_conviction_sum_nonneg hconv)
    (no_conviction_sum_nonneg hconv)
  have hfield : (day_result cfg d ws).direction_score =
      roundTo 3 (day_direction_score (day_insiders cfg ws)) := rfl
  rw [hfield]
  exact ⟨neg_one_le_roundTo hb.1, roundTo_le_one hb.2⟩

/-! Bounds for the aggregate weighting loop. -/

theorem recency_weight_pos (d : ℕ) : 0 < recency_weight d := by
  unfold recency_weight; split_ifs <;> norm_num

theorem weight_dominates_score {rs : List DayResult}
    (hm : ∀ r ∈ rs, |r.direction_score| ≤ 1) :
    ∀ n i, |weighted_score_aux n i rs| ≤ total_weight_aux n i rs := by
  induction rs with
  | nil => intro n i; simp [weighted_score_aux, total_weight_aux]
  | cons r rs ih =>
    intro n i
    have hr : |r.direction_score| ≤ 1 := hm r (by simp)
    have hrec := ih (fun x hx => hm x (by simp [hx])) n (i + 1)
    have hw := recency_weight_pos (n - 1 - i)
    simp only [weighted_score_aux, total_weight_aux]
    calc |r.direction_score * recency_weight (n - 1 - i) + weighted_score_aux n (i + 1) rs|
        ≤ |r.direction_score * recency_weight (n - 1 - i)| + |weighted_score_aux n (i + 1) rs| :=
          abs_add _ _
      _ ≤ recency_weight (n - 1 - i) + total_weight_aux n (i + 1) rs := by
          rw [abs_mul, abs_of_pos hw]
          have h1 : |r.direction_score| * recency_weight (n - 1 - i) ≤
              1 * recency_weight (n - 1 - i) := mul_le_mul_of_nonneg_right hr hw.le
          linarith

theorem avg_direction_raw_bounds {rs : List DayResult}
    (hm : ∀ r ∈ rs, |r.direction_score| ≤ 1) :
    -1 ≤ avg_direction_raw rs ∧ avg_direction_raw rs ≤ 1 := by
  unfold avg_direction_raw
  split_ifs with h
  · have habs := weight_dominates_score hm rs.length 0
    have h1 := abs_le.mp habs
    unfold weighted_score total_weight at *
    constructor
    · rw [le_div_iff h]; linarith [h1.1]
    · rw [div_le_one h]; linarith [h1.2]
  · norm_num

theorem avg_direction_bounds {rs : List DayResult}
    (hm : ∀ r ∈ rs, |r.direction_score| ≤ 1) :
    -1 ≤ avg_direction rs ∧ avg_direction rs ≤ 1 := by
  have hraw := avg_direction_raw_bounds hm
  unfold avg_direction
  cases hlast : rs.getLast? with
  | none => exact hraw
  | some last =>
    have hl := abs_le.mp (hm last (mem_of_getLast?_eq hlast))
    dsimp only
    split_ifs
    · constructor <;> [linarith [hraw.1, hl.1]; linarith [hraw.2, hl.2]]
    · exact hraw

theorem agg_sig_fields {rs : List DayResult} {s : AggregateSignal}
    (h : get_aggregate_signal rs = .sig s) :
    s.direction_score = roundTo 4 (avg_direction rs) ∧
    s.predicted = (agg_signal_of (avg_direction rs)).2 := by
  cases rs with
  | nil => simp [get_aggregate_signal] at h
  | cons a as =>
    simp only [get_aggregate_signal, AggOut.sig.injEq] at h
    rw [← h]
    exact ⟨rfl, rfl⟩

/-- C2: every direction score the analyzer produces lies in [-1, 1]: the
per-day `direction_score` of each record of `analyze_daily`, the blended
aggregate `avg_direction` (value of `avg_direction` after the last-day
blend), and the `direction_score` field returned by `get_aggregate_signal`.
The hypothesis `0 ≤ min_wallet_volume` holds for every configuration the
repository constructs (the default is 10000); it guarantees that each
qualifying wallet's conviction is non-negative. -/
theorem direction_scores_in_unit_interval (cfg : AnalysisConfig) (dm : DayMap)
    (h : 0 ≤ cfg.min_wallet_volume) :
    (∀ r ∈ analyze_daily cfg dm, -1 ≤ r.direction_score ∧ r.direction_score ≤ 1) ∧
    (-1 ≤ avg_direction (analyze_daily cfg dm) ∧ avg_direction (analyze_daily cfg dm) ≤ 1) ∧
    (∀ s, get_aggregate_signal (analyze_daily cfg dm) = .sig s →
      -1 ≤ s.direction_score ∧ s.direction_score ≤ 1) := by
  have hmem : ∀ r ∈ analyze_daily cfg dm, -1 ≤ r.direction_score ∧ r.direction_score ≤ 1 := by
    intro r hr
    rcases List.mem_map.mp hr with ⟨e, _, rfl⟩
    exact day_result_score_bounds h e.1 e.2
  have habs : ∀ r ∈ analyze_daily cfg dm, |r.direction_score| ≤ 1 :=
    fun r hr => abs_le.mpr (hmem r hr)
  have havg := avg_direction_bounds habs
  refine ⟨hmem, havg, ?_⟩
  intro s hs
  rw [(agg_sig_fields hs).1]
  exact ⟨neg_one_le_roundTo havg.1, roundTo_le_one havg.2⟩

/-- Example day map: one day with a single high-conviction wallet. -/
def exProfile : DailyWalletProfile :=
  { address := "0xw", date := 0, buy_vol_yes := 50000, buy_vol_no := 0,
    trade_sizes := [50000], first_ts := some 0, last_ts := some 0 }

def exDayMap : DayMap := [(0, [("0xw", exProfile)])]

def exCfg : AnalysisConfig := {}

/-- C2 witness: the hypothesis holds at the default configuration and the
theorem yields the bound for the concrete single-day map. -/
theorem direction_scores_in_unit_interval_witness :
    -1 ≤ (day_result exCfg 0 [("0xw", exProfile)]).direction_score ∧
    (day_result exCfg 0 [("0xw", exProfile)]).direction_score ≤ 1 :=
  (direction_scores_in_unit_interval exCfg exDayMap (by norm_num [exCfg])).1
    (day_result exCfg 0 [("0xw", exProfile)])
    (by simp [analyze_daily, sortAsc, insertAsc, exDayMap])

/-- Total conviction of qualifying YES wallets, written directly as a sum
over the day's wallet map (the reading of the daily aggregation used in the
claims): a wallet qualifies when it reaches the volume and score thresholds. -/
def qualifying_yes_conviction (cfg : AnalysisConfig) (ws : AddrMap) : ℚ :=
  (ws.map fun av =>
    if cfg.min_wallet_volume ≤ av.2.total_volume ∧
       cfg.min_insider_score ≤ calculate_insider_score av.2 ∧
       av.2.direction = "YES"
    then av.2.conviction else 0).sum

/-- Total conviction of qualifying NO wallets, as a sum over the wallet map. -/
def qualifying_no_conviction (cfg : AnalysisConfig) (ws : AddrMap) : ℚ :=
  (ws.map fun av =>
    if cfg.min_wallet_volume ≤ av.2.total_volume ∧
       cfg.min_insider_score ≤ calculate_insider_score av.2 ∧
       av.2.direction = "NO"
    then av.2.conviction else 0).sum

theorem yes_conviction_sum_eq (cfg : AnalysisConfig) (ws : AddrMap) :
    yes_conviction_sum (day_insiders cfg ws) = qualifying_yes_conviction cfg ws := by
  induction ws with
  | nil => simp [day_insiders, yes_conviction_sum, qualifying_yes_conviction]
  | cons av rest ih =>
    unfold qualifying_yes_conviction day_insiders yes_conviction_sum at ih ⊢
    rw [List.filterMap_cons, List.map_cons, List.sum_cons]
    by_cases h1 : av.2.total_volume < cfg.min_wallet_volume
    · have h1' : ¬ cfg.min_wallet_volume ≤ av.2.total_volume := not_le.mpr h1
      simp only [h1, if_true, h1', false_and, if_false, zero_add]
      exact ih
    · have h1' : cfg.min_wallet_volume ≤ av.2.total_volume := not_lt.mp h1
      by_cases h2 : cfg.min_insider_score ≤ calculate_insider_score av.2
      · by_cases h3 : av.2.direction = "YES"
        · simp only [h1, if_false, h2, if_true, h1', h3, and_self, and_true, true_and,
            List.filter_cons, decide_eq_true_eq, List.map_cons, List.sum_cons]
          rw [ih]
        · simp only [h1, if_false, h2, if_true, h3, and_false, zero_add,
            List.filter_cons, decide_eq_true_eq]
          rw [ih]
      · simp only [h1, if_false, h2, false_and, and_false, zero_add]
        exact ih

theorem no_conviction_sum_eq (cfg : AnalysisConfig) (ws : AddrMap) :
    no_conviction_sum (day_insiders cfg ws) = qualifying_no_conviction cfg ws := by
  induction ws with
  | nil => simp [day_insiders, no_conviction_sum, qualifying_no_conviction]
  | cons av rest ih =>
    unfold qualifying_no_conviction day_insiders no_conviction_sum at ih ⊢
    rw [List.filterMap_cons, List.map_cons, List.sum_cons]
    by_cases h1 : av.2.total_volume < cfg.min_wallet_volume
    · have h1' : ¬ cfg.min_wallet_volume ≤ av.2.total_volume := not_le.mpr h1
      simp only [h1, if_true, h1', false_and, if_false, zero_add]
      exact ih
    · have h1' : cfg.min_wallet_volume ≤ av.2.total_volume := not_lt.mp h1
      by_cases h2 : cfg.min_insider_score ≤ calculate_insider_score av.2
      · by_cases h3 : av.2.direction = "NO"
        · simp only [h1, if_false, h2, if_true, h1', h3, and_self, and_true, true_and,
            List.filter_cons, decide_eq_true_eq, List.map_cons, List.sum_cons]
          rw [ih]
        · simp only [h1, if_false, h2, if_true, h3, and_false, zero_add,
            List.filter_cons, decide_eq_true_eq]
          rw [ih]
      · simp only [h1, if_false, h2, false_and, and_false, zero_add]
        exact ih

theorem agg_signal_of_predicted (x : ℚ) :
    (agg_signal_of x).2 =
      if 1 / 10 < x then "YES" else if x < -(1 / 10) then "NO" else "NEUTRAL" := by
  unfold agg_signal_of
  split_ifs <;> first
    | rfl
    | (exfalso; linarith)

/-- C3: the direction aggregator. Per day: the direction score equals
(total qualifying YES conviction - total qualifying NO conviction) divided
by their sum (0 when the sum is 0), and the emitted record stores its
3-decimal rounding. Aggregate: the `predicted` field is exactly one of
YES/NO/NEUTRAL, YES iff the recency-weighted (and possibly last-day-blended)
score exceeds 0.1 and NO iff it is below -0.1. -/
theorem direction_aggregation :
    (∀ cfg ws d, 0 ≤ cfg.min_wallet_volume →
      day_direction_score (day_insiders cfg ws) =
        (if qualifying_yes_conviction cfg ws + qualifying_no_conviction cfg ws = 0 then 0
         else (qualifying_yes_conviction cfg ws - qualifying_no_conviction cfg ws) /
              (qualifying_yes_conviction cfg ws + qualifying_no_conviction cfg ws)) ∧
      (day_result cfg d ws).direction_score =
        roundTo 3 (day_direction_score (day_insiders cfg ws))) ∧
    (∀ rs s, get_aggregate_signal rs = .sig s →
      s.predicted =
        (if 1 / 10 < avg_direction rs then "YES"
         else if avg_direction rs < -(1 / 10) then "NO" else "NEUTRAL") ∧
      (s.predicted = "YES" ∨ s.predicted = "NO" ∨ s.predicted = "NEUTRAL")) := by
  constructor
  · intro cfg ws d h
    have hconv : ∀ w ∈ day_insiders cfg ws, 0 ≤ w.conviction :=
      fun w hw => day_insiders_conviction_nonneg h hw
    have hy := yes_conviction_sum_nonneg hconv
    have hn := no_conviction_sum_nonneg hconv
    refine ⟨?_, rfl⟩
    unfold day_direction_score
    rw [yes_conviction_sum_eq] at hy
    rw [no_conviction_sum_eq] at hn
    rw [yes_conviction_sum_eq, no_conviction_sum_eq]
    split_ifs with hpos hz hz
    · linarith
    · rfl
    · rfl
    · exfalso
      have : 0 ≤ qualifying_yes_conviction cfg ws + qualifying_no_conviction cfg ws := by
        linarith
      rcases lt_or_eq_of_le this with hlt | heq
      · exact hpos hlt
      · exact hz heq.symm
  · intro rs s hs
    have hp := (agg_sig_fields hs).2
    rw [hp, agg_signal_of_predicted]
    constructor
    · rfl
    · split_ifs <;> simp

/-- Example daily record used to instantiate the aggregate part of C3. -/
def exDayRes : DayResult :=
  { date := 0, insider_count := 0, yes_insiders := 0, no_insiders := 0,
    yes_conviction := 0, no_conviction := 0, direction_score := 1,
    signal := "STRONG_YES", top_insiders := [] }

/-- The aggregate record `get_aggregate_signal` returns for `[exDayRes]`. -/
def exAgg : AggregateSignal :=
  { signal := (agg_signal_of (avg_direction [exDayRes])).1
    predicted := (agg_signal_of (avg_direction [exDayRes])).2
    direction_score := roundTo 4 (avg_direction [exDayRes])
    yes_days := [exDayRes].countP fun r => decide (r.signal = "YES" ∨ r.signal = "STRONG_YES")
    no_days := [exDayRes].countP fun r => decide (r.signal = "NO" ∨ r.signal = "STRONG_NO")
    neutral_days := [exDayRes].countP fun r => decide (r.signal = "NEUTRAL")
    total_insiders := ([exDayRes].map (·.insider_count)).sum
    last_day_score := roundTo 4 (([exDayRes].getLast?).elim 0 (·.direction_score))
    last_day_insiders := ([exDayRes].getLast?).elim 0 (·.insider_count) }

/-- C3 witness: both parts of the theorem applied at concrete inputs. -/
theorem direction_aggregation_witness :
    ((day_result exCfg 0 []).direction_score =
      roundTo 3 (day_direction_score (day_insiders exCfg []))) ∧
    (exAgg.predicted = "YES" ∨ exAgg.predicted = "NO" ∨ exAgg.predicted = "NEUTRAL") :=
  ⟨(direction_aggregation.1 exCfg [] 0 (by norm_num [exCfg])).2,
   (direction_aggregation.2 [exDayRes] exAgg rfl).2⟩

/-! Association list lemmas (Python dict reads after writes). -/

theorem alFind_alUpd_same [DecidableEq κ] (k : κ) (f : Option β → β) (l : List (κ × β)) :
    alFind k (alUpd k f l) = some (f (alFind k l)) := by
  induction l with
  | nil => simp [alFind, alUpd]
  | cons e rest ih =>
    by_cases h : e.1 = k
    · simp [alUpd, alFind, h]
    · simp [alUpd, alFind, h, ih]

theorem alFind_alUpd_other [DecidableEq κ] {k k' : κ} (hne : k ≠ k') (f : Option β → β)
    (l : List (κ × β)) : alFind k' (alUpd k f l) = alFind k' l := by
  induction l with
  | nil => simp [alFind, alUpd, hne]
  | cons e rest ih =>
    by_cases h : e.1 = k
    · simp [alUpd, alFind, h, hne, ih]
    · simp [alUpd, alFind, h, ih]

/-- Does a trade row contribute to the profile of wallet `a` on day `d`? -/
def touchesB (t : TradeRow) (d : ℤ) (a : String) : Bool :=
  match t.ts with
  | none => false
  | some ts => decide (credited t = some a) && decide (dayOf ts = d)

/-- Timestamp of a row known to have one (default irrelevant). -/
def tsVal (t : TradeRow) : ℤ := t.ts.getD 0

def listMinZ : List ℤ → Option ℤ
  | [] => none
  | x :: xs => some (xs.foldl min x)

def listMaxZ : List ℤ → Option ℤ
  | [] => none
  | x :: xs => some (xs.foldl max x)

/-- The profile the claim says `build_daily_profiles` should produce for
wallet `a` on day `d` from the relevant rows `rel`: per-side buy volume
sums, the list of trade sizes, and the first/last trade timestamps. -/
def aggregated_profile (d : ℤ) (a : String) (rel : List TradeRow) :
    Option DailyWalletProfile :=
  if rel.isEmpty then none
  else some
    { address := a
      date := d
      buy_vol_yes :=
        ((rel.filter fun t => decide (stripStr t.nonusdc_side = "token1")).map
          (·.usd_amount)).sum
      buy_vol_no :=
        ((rel.filter fun t => !decide (stripStr t.nonusdc_side = "token1")).map
          (·.usd_amount)).sum
      trade_sizes := rel.map (·.usd_amount)
      first_ts := listMinZ (rel.map tsVal)
      last_ts := listMaxZ (rel.map tsVal) }

theorem if_lt_eq_min (m s : ℤ) : (if s < m then s else m) = min m s := by
  rcases lt_or_le s m with h | h
  · rw [if_pos h, min_eq_right h.le]
  · rw [if_neg (not_lt.mpr h), min_eq_left h]

theorem if_lt_eq_max (l s : ℤ) : (if l < s then s else l) = max l s := by
  rcases lt_or_le l s with h | h
  · rw [if_pos h, max_eq_right h.le]
  · rw [if_neg (not_lt.mpr h), max_eq_left h]

theorem aggregated_profile_append (d : ℤ) (a : String) (rel : List TradeRow)
    (t : TradeRow) (s : ℤ) (hts : t.ts = some s) :
    aggregated_profile d a (rel ++ [t]) =
      some (touchProfile t.usd_amount (stripStr t.nonusdc_side) s
        ((aggregated_profile d a rel).getD { address := a, date := d })) := by
  have htsv : tsVal t = s := by unfold tsVal; rw [hts]; rfl
  have hsum : ∀ p : TradeRow → Bool,
      (((rel ++ [t]).filter p).map (·.usd_amount)).sum =
        ((rel.filter p).map (·.usd_amount)).sum + (if p t then t.usd_amount else 0) := by
    intro p
    rw [List.filter_append]
    by_cases hp : p t
    · simp [List.filter_cons, hp]
    · simp [List.filter_cons, hp]
  cases rel with
  | nil =>
    simp only [List.nil_append, aggregated_profile, List.isEmpty_cons, List.isEmpty_nil,
      if_true, if_false, Bool.false_eq_true, Option.getD_none, Option.some.injEq]
    unfold touchProfile
    by_cases hside : stripStr t.nonusdc_side = "token1"
    · simp [hside, listMinZ, listMaxZ, htsv, List.filter_cons]
    · simp [hside, listMinZ, listMaxZ, htsv, List.filter_cons]
  | cons r rs =>
    have h1 := hsum fun u => decide (stripStr u.nonusdc_side = "token1")
    have h2 := hsum fun u => !decide (stripStr u.nonusdc_side = "token1")
    unfold aggregated_profile
    simp only [List.cons_append, List.isEmpty_cons, Bool.false_eq_true, if_false,
      Option.getD_some, Option.some.injEq]
    simp only [touchProfile]
    by_cases hside : stripStr t.nonusdc_side = "token1"
    · rw [if_pos hside]
      simp only [DailyWalletProfile.mk.injEq]
      refine ⟨trivial, trivial, ?_, ?_, ?_, ?_, ?_⟩
      · simpa [hside] using h1
      · simpa [hside] using h2
      · simp
      · simp [listMinZ, List.map_cons, List.map_append, List.foldl_append,
          if_lt_eq_min, htsv]
      · simp [listMaxZ, List.map_cons, List.map_append, List.foldl_append,
          if_lt_eq_max, htsv]
    · rw [if_neg hside]
      simp only [DailyWalletProfile.mk.injEq]
      refine ⟨trivial, trivial, ?_, ?_, ?_, ?_, ?_⟩
      · simpa [hside] using h1
      · simpa [hside] using h2
      · simp
      · simp [listMinZ, List.map_cons, List.map_append, List.foldl_append,
          if_lt_eq_min, htsv]
      · simp [listMaxZ, List.map_cons, List.map_append, List.foldl_append,
          if_lt_eq_max, htsv]

theorem profileAt_processRow_touch {m : DayMap} {t : TradeRow} {s : ℤ} {a : String}
    (hts : t.ts = some s) (hcred : credited t = some a) :
    profileAt (processRow m t) (dayOf s) a =
      some (touchProfile t.usd_amount (stripStr t.nonusdc_side) s
        ((profileAt m (dayOf s) a).getD { address := a, date := dayOf s })) := by
  unfold processRow profileAt
  rw [hts, hcred]
  rw [alFind_alUpd_same]
  cases halm : alFind (dayOf s) m with
  | none => simp [alFind_alUpd_same, alFind, alUpd]
  | some am => simp [alFind_alUpd_same]

theorem profileAt_processRow_miss {m : DayMap} {t : TradeRow} {d : ℤ} {a : String}
    (hmiss : touchesB t d a = false) :
    profileAt (processRow m t) d a = profileAt m d a := by
  unfold processRow
  cases hts : t.ts with
  | none => rfl
  | some s =>
    cases hcred : credited t with
    | none => rfl
    | some b =>
      dsimp only
      unfold touchesB at hmiss
      rw [hts, hcred] at hmiss
      simp only [Bool.and_eq_false_iff, decide_eq_false_iff_not, Option.some.injEq] at hmiss
      by_cases hd : dayOf s = d
      · have hb : b ≠ a := by
          rcases hmiss with hm | hm
          · exact hm
          · exact absurd hd hm
        unfold profileAt
        rw [hd, alFind_alUpd_same]
        cases halm : alFind d m with
        | none => simp [alFind_alUpd_other hb, alFind, alUpd, hb]
        | some am => simp [alFind_alUpd_other hb]
      · unfold profileAt
        rw [alFind_alUpd_other hd]

/-- C4 (amended): what `build_daily_profiles` actually aggregates. For every
wallet `a` and day `d`, the stored profile exists iff some row credits `a`
with a buy on day `d`, and then its YES/NO buy volumes are the sums of the
credited rows' USD amounts split by token side, its trade sizes are those
rows' USD amounts in order, and its first/last timestamps are their minimum
and maximum. Only the buy side of each trade is recorded: the selling
counterparty contributes nothing. -/
theorem build_daily_profiles_aggregates (trades : List TradeRow) (d : ℤ) (a : String) :
    profileAt (build_daily_profiles trades) d a =
      aggregated_profile d a (trades.filter fun t => touchesB t d a) := by
  induction trades using List.reverseRecOn with
  | nil => rfl
  | append_singleton l t ih =>
    have hbuild : build_daily_profiles (l ++ [t]) = processRow (build_daily_profiles l) t := by
      unfold build_daily_profiles
      rw [List.foldl_append]
      rfl
    rw [hbuild, List.filter_append]
    cases htb : touchesB t d a with
    | false =>
      rw [profileAt_processRow_miss htb]
      simp [List.filter_cons, htb, ih]
    | true =>
      have hex : ∃ s, t.ts = some s := by
        unfold touchesB at htb
        cases hts : t.ts with
        | none => rw [hts] at htb; simp at htb
        | some s => exact ⟨s, rfl⟩
      rcases hex with ⟨s, hts⟩
      have hparts : credited t = some a ∧ dayOf s = d := by
        unfold touchesB at htb
        rw [hts] at htb
        simpa using htb
      have htouch := profileAt_processRow_touch (m := build_daily_profiles l) hts hparts.1
      rw [hparts.2] at htouch
      rw [htouch]
      rw [show (List.filter (fun t => touchesB t d a) [t]) = [t] by simp [List.filter_cons, htb]]
      rw [aggregated_profile_append d a _ t s hts, ih]

/-- Single trade: the maker buys (maker_direction BUY), the taker sells. -/
def exTrade : TradeRow :=
  { maker := "0xA", taker := "0xB", usd_amount := 100, nonusdc_side := "token1",
    maker_direction := "BUY", ts := some 0 }

/-- C4 counterexample: the claim says `build_daily_profiles` aggregates, for
every wallet on each calendar day, the wallet's buy AND sell volume. In the
single trade `exTrade`, wallet 0xb sells (it is the taker of a BUY-direction
maker trade) 100 USD on day 0, yet the built profiles contain no entry at
all for it - only the buying maker 0xa is profiled - so no sell volume is
ever aggregated. -/
theorem build_daily_profiles_no_seller_cex :
    credited exTrade = some "0xa" ∧
    profileAt (build_daily_profiles [exTrade]) 0 "0xb" = none ∧
    (profileAt (build_daily_profiles [exTrade]) 0 "0xa").isSome = true := by
  refine ⟨rfl, rfl, rfl⟩

/-- C6: with a close time provided, `analyze_market` depends only on the
trades inside [closed_time - lookback_days, closed_time - 1 hour): analyzing
the full list equals analyzing its window-filtered restriction, fewer than
50 surviving trades gives the NO_DATA result, and appending any
out-of-window trade leaves the result unchanged. -/
theorem analyze_market_window (cfg : AnalysisConfig) (trades : List TradeRow)
    (c : ℤ) (rd : Bool) :
    analyze_market cfg trades (some c) rd =
      analyze_market cfg (trades.filter (in_window cfg c)) (some c) rd ∧
    ((trades.filter (in_window cfg c)).length < 50 →
      analyze_market cfg trades (some c) rd = .no_data "insufficient_trades") ∧
    (∀ t, in_window cfg c t = false →
      analyze_market cfg (trades ++ [t]) (some c) rd =
        analyze_market cfg trades (some c) rd) := by
  have hidem : (trades.filter (in_window cfg c)).filter (in_window cfg c) =
      trades.filter (in_window cfg c) := by
    induction trades with
    | nil => simp
    | cons t ts ih =>
      by_cases h : in_window cfg c t
      · simp [List.filter_cons, h, ih]
      · simp [List.filter_cons, h, ih]
  refine ⟨?_, ?_, ?_⟩
  · unfold analyze_market
    dsimp only
    rw [hidem]
  · intro h
    unfold analyze_market
    dsimp only
    rw [if_pos h]
  · intro t ht
    unfold analyze_market
    dsimp only
    rw [List.filter_append]
    rw [show List.filter (in_window cfg c) [t] = [] by simp [List.filter_cons, ht]]
    rw [List.append_nil]

/-- C6 witness: the empty trade list leaves fewer than 50 trades in any
window, so the analysis reports insufficient data. -/
theorem analyze_market_window_witness :
    analyze_market exCfg [] (some 0) true = .no_data "insufficient_trades" :=
  (analyze_market_window exCfg [] 0 true).2.1 (by simp)

/-! Model of MarketDataExtractor.extract_single_market (data_extractor.py).
The 35GB trades.csv is modelled as a list of chunks, each a list of parsed
rows; `market_id` is the value after pd.to_numeric coercion (`none` = NaN). -/

/-- A row of the big trades CSV, with an opaque payload standing for the
remaining columns. -/
structure CsvRow where
  market_id : Option ℤ
  payload : ℕ
deriving DecidableEq, Repr

/-- The chunk filter `chunk[chunk.market_id == market_id]`. -/
def matches_market (mid : ℤ) (r : CsvRow) : Bool := decide (r.market_id = some mid)

/-- The chunk loop of `extract_single_market`: accumulate matching rows,
count consecutive matchless chunks, and stop early after 3 consecutive
matchless chunks once at least one match has been collected. -/
def extract_go (mid : ℤ) (acc : List CsvRow) (ce : ℕ) : List (List CsvRow) → List CsvRow
  | [] => acc
  | chunk :: rest =>
    let m := chunk.filter (matches_market mid)
    let acc' := acc ++ m
    let ce' := if m.isEmpty then ce + 1 else 0
    if 3 ≤ ce' ∧ acc' ≠ [] then acc' else extract_go mid acc' ce' rest

/-- Models `extract_single_market` on the uncached path (the cache layer
only replays a previous extraction). -/
def extract_single_market (mid : ℤ) (chunks : List (List CsvRow)) : List CsvRow :=
  extract_go mid [] 0 chunks

theorem extract_go_spec (mid : ℤ) :
    ∀ (chunks : List (List CsvRow)) (acc : List CsvRow) (ce : ℕ),
      ∃ k ≤ chunks.length,
        extract_go mid acc ce chunks =
          acc ++ ((chunks.take k).flatten).filter (matches_market mid) := by
  intro chunks
  induction chunks with
  | nil =>
    intro acc ce
    exact ⟨0, Nat.le_refl 0, by simp [extract_go]⟩
  | cons chunk rest ih =>
    intro acc ce
    by_cases hbreak : 3 ≤ (if (chunk.filter (matches_market mid)).isEmpty then ce + 1 else 0) ∧
        acc ++ chunk.filter (matches_market mid) ≠ []
    · refine ⟨1, by simp, ?_⟩
      unfold extract_go
      rw [if_pos hbreak]
      simp
    · rcases ih (acc ++ chunk.filter (matches_market mid))
        (if (chunk.filter (matches_market mid)).isEmpty then ce + 1 else 0) with ⟨k, hk, heq⟩
      refine ⟨k + 1, by simpa using hk, ?_⟩
      unfold extract_go
      rw [if_neg hbreak, heq]
      simp [List.filter_append, List.append_assoc]

/-- C5 (amended): the chunked scan returns exactly the matching rows of a
prefix of the file - the chunks processed before the early stop - and it
agrees with filtering the entire file precisely when no matching row lies
beyond that stopping prefix. -/
theorem extract_single_market_prefix (mid : ℤ) (chunks : List (List CsvRow)) :
    ∃ k ≤ chunks.length,
      extract_single_market mid chunks =
        ((chunks.take k).flatten).filter (matches_market mid) ∧
      (((chunks.drop k).flatten).filter (matches_market mid) = [] →
        extract_single_market mid chunks =
          chunks.flatten.filter (matches_market mid)) := by
  rcases extract_go_spec mid chunks [] 0 with ⟨k, hk, heq⟩
  rw [List.nil_append] at heq
  refine ⟨k, hk, heq, ?_⟩
  intro hrest
  show extract_go mid [] 0 chunks = _
  rw [heq]
  calc ((chunks.take k).flatten).filter (matches_market mid)
      = ((chunks.take k).flatten).filter (matches_market mid) ++
        ((chunks.drop k).flatten).filter (matches_market mid) := by rw [hrest]; simp
    _ = chunks.flatten.filter (matches_market mid) := by
        rw [← List.filter_append, ← List.flatten_append, List.take_append_drop]

/-- C5 witness: on a file with no matching rows the scan never stops early
and returns the full (empty) filter. -/
theorem extract_single_market_prefix_witness :
    extract_single_market 7 [[⟨some 3, 0⟩]] =
      ([[⟨some 3, 0⟩]] : List (List CsvRow)).flatten.filter (matches_market 7) := by
  rcases extract_single_market_prefix 7 [[⟨some 3, 0⟩]] with ⟨k, _, _, himp⟩
  refine himp ?_
  cases k with
  | zero => simp [matches_market]
  | succ n => simp

def cexRowA : CsvRow := ⟨some 7, 0⟩

def cexRowB : CsvRow := ⟨some 7, 1⟩

/-- The market's rows sit before and after a run of 3 matchless chunks. -/
def cexChunks : List (List CsvRow) := [[cexRowA], [], [], [], [cexRowB]]

/-- C5 counterexample: the early stop (3 consecutive matchless chunks after
a match) drops the later matching row, so the chunked scan is not
equivalent to filtering the entire file. -/
theorem extract_single_market_cex :
    extract_single_market 7 cexChunks = [cexRowA] ∧
    cexChunks.flatten.filter (matches_market 7) = [cexRowA, cexRowB] ∧
    extract_single_market 7 cexChunks ≠ cexChunks.flatten.filter (matches_market 7) := by
  refine ⟨by decide, by decide, by decide⟩

/-! Model of the copy-trading engine (copy_trader.py, copy_trader_config.py). -/

/-- The configuration dict CONFIG. `position_scale` models the source field
`position_ratio` (renamed only for lexical reasons); defaults follow
copy_trader_config.py. -/
structure CopyConfig where
  position_scale : ℚ := 1 / 10
  max_position_usd : ℚ := 50
  min_position_usd : ℚ := 1
  daily_loss_limit : ℚ := 200
  max_open_positions : ℕ := 10
  max_slippage_pct : ℚ := 2
  min_liquidity : ℚ := 5000
  max_trade_age_seconds : ℚ := 30
  excluded_markets : List String := []
  copy_maker_trades : Bool := false
  dry_run : Bool := true
deriving Repr

/-- The default configuration. -/
def CONFIG : CopyConfig := {}

/-- The `liquidity` entry of a market-info dict as seen through
`float(market_info.get('liquidity', 0))`: a missing key yields the default
0, a parseable value yields that number, and a value on which `float`
raises is `bad` (caught by the bare `except`). -/
inductive LiqField where
  | absent
  | val (q : ℚ)
  | bad
deriving DecidableEq, Repr

/-- A JSON-list field as seen through `json.loads(info.get(key, '[]'))`:
a missing key parses to the empty list, malformed JSON raises (`bad`). -/
inductive JListStr where
  | ok (l : List String)
  | bad
deriving DecidableEq, Repr

inductive JListQ where
  | ok (l : List ℚ)
  | bad
deriving DecidableEq, Repr

/-- The slice of a Gamma market dict the risk checks read. -/
structure MarketInfo where
  liquidity : LiqField
  clobTokenIds : JListStr
  outcomes : JListStr
  outcomePrices : JListQ
  slug : String
deriving Repr

/-- Models `CopyTrader._check_liquidity`: fail when the parsed liquidity is
below `min_liquidity`; any parsing exception passes the check. -/
def check_liquidity (cfg : CopyConfig) (m : MarketInfo) : Bool :=
  match m.liquidity with
  | .bad => true
  | .absent => !decide ((0 : ℚ) < cfg.min_liquidity)
  | .val q => !decide (q < cfg.min_liquidity)

/-- Models `CopyTrader._check_trade_age`: fail when `now - timestamp`
exceeds `max_trade_age_seconds`. -/
def check_trade_age (cfg : CopyConfig) (now : ℚ) (trade_ts : ℤ) : Bool :=
  !decide (cfg.max_trade_age_seconds < now - (trade_ts : ℚ))

/-- Models `CopyTrader._check_daily_loss_limit`: fail once the accumulated
daily PnL is below `-daily_loss_limit`. -/
def check_daily_loss (cfg : CopyConfig) (daily_pnl : ℚ) : Bool :=
  !decide (daily_pnl < -cfg.daily_loss_limit)

/-- Models `CopyTrader._check_max_positions`. -/
def check_max_positions (cfg : CopyConfig) (open_count : ℕ) : Bool :=
  decide (open_count < cfg.max_open_positions)

/-- Models `CopyTrader._check_slippage`: parse the three JSON fields (any
failure passes), pass when the price list is empty or the target price is
not positive, otherwise fail iff the relative deviation of the current YES
price from the target price exceeds `max_slippage_pct` percent. The `side`
argument is accepted and unused, as in the source. -/
def check_slippage (cfg : CopyConfig) (m : MarketInfo) (target_price : ℚ)
    (_side : String) : Bool :=
  match m.clobTokenIds, m.outcomes, m.outcomePrices with
  | .ok _, .ok _, .ok prices =>
    match prices with
    | [] => true
    | current :: _ =>
      if 0 < target_price then
        if cfg.max_slippage_pct < |current - target_price| / target_price * 100 then false
        else true
      else true
  | _, _, _ => true

/-- Models `CopyTrader._calculate_position_size`: scale the target's USD
amount, clamp into [min_position_usd, max_position_usd], convert back to a
share size at the target price, and round to 2 decimals. -/
def calculate_position_size (cfg : CopyConfig) (target_size target_price : ℚ) : ℚ :=
  let target_amount := target_size * target_price
  let my_amount1 := target_amount * cfg.position_scale
  let my_amount2 := max my_amount1 cfg.min_position_usd
  let my_amount3 := min my_amount2 cfg.max_position_usd
  let my_size := if 0 < target_price then my_amount3 / target_price else my_amount3
  roundTo 2 my_size

/-- Models `CopyTrader._get_token_id`: first token whose outcome matches
case-insensitively, else the first token; `none` on parse failure, empty
lists, or an out-of-range index (IndexError is caught). -/
def get_token_id (m : MarketInfo) (outcome : String) : Option String :=
  match m.clobTokenIds, m.outcomes with
  | .ok tokens, .ok outs =>
    if tokens.isEmpty ∨ outs.isEmpty then none
    else
      match outs.findIdx? fun o => decide (upperStr o = upperStr outcome) with
      | some i => tokens.get? i
      | none => tokens.head?
  | _, _ => none

/-- A trade of the target wallet as consumed by `_process_new_trade`. -/
structure TradeIn where
  conditionId : String
  slug : String
  timestamp : ℤ
  side : String
  size : ℚ
  price : ℚ
  outcome : String := "Yes"
  title : String := "Unknown"
deriving Repr

/-- An order submitted to the CLOB client by `_execute_trade`. -/
structure Order where
  token_id : String
  side : String
  size : ℚ
  price : ℚ
deriving Repr

/-- The mutable per-day risk state of the engine. -/
structure CTState where
  daily_pnl : ℚ
  open_positions_count : ℕ
deriving Repr

/-- Models `CopyTrader._execute_trade`. The returned list is the trace of
orders submitted to the trading client: empty in dry-run mode and on the
guard failures, a singleton when `place_order` is attempted. `have_trader`
is whether the client was initialised, `place_ok` whether `place_order`
returns without raising. -/
def execute_trade (cfg : CopyConfig) (have_trader place_ok : Bool)
    (t : TradeIn) (m : MarketInfo) : Bool × List Order :=
  let side := upperStr t.side
  let my_size := calculate_position_size cfg t.size t.price
  let token_id := get_token_id m t.outcome
  if cfg.dry_run then (true, [])
  else if !have_trader then (false, [])
  else
    match token_id with
    | none => (false, [])
    | some tid =>
      if place_ok then (true, [⟨tid, side, my_size, t.price⟩])
      else (false, [⟨tid, side, my_size, t.price⟩])

/-- Models `CopyTrader._process_new_trade`: the eight sequential steps -
trade age, daily loss, max positions (buys only), market-info lookup,
liquidity, slippage, exclusion list, then execution. `market_lookup` is the
result of `_get_market_info` (an external query). -/
def process_new_trade (cfg : CopyConfig) (st : CTState) (now : ℚ)
    (market_lookup : Option MarketInfo) (have_trader place_ok : Bool)
    (t : TradeIn) : Bool × List Order :=
  if !check_trade_age cfg now t.timestamp then (false, [])
  else if !check_daily_loss cfg st.daily_pnl then (false, [])
  else if upperStr t.side = "BUY" ∧ !check_max_positions cfg st.open_positions_count then
    (false, [])
  else
    match market_lookup with
    | none => (false, [])
    | some m =>
      if !check_liquidity cfg m then (false, [])
      else if !check_slippage cfg m t.price (upperStr t.side) then (false, [])
      else if m.slug ∈ cfg.excluded_markets then (false, [])
      else execute_trade cfg have_trader place_ok t m

/-- A row of the trade feed polled from the data API; only the fields the
dedup logic reads (timestamps and transaction hashes as numbers). -/
structure PollTrade where
  ts : ℕ
  hash : ℕ
deriving DecidableEq, Repr

/-- The loop state `(last_timestamp, last_hashes)` of `CopyTrader.start`;
the hash set is modelled as a duplicate-free list in insertion order. -/
structure PollState where
  last_timestamp : ℕ
  last_hashes : List ℕ
deriving DecidableEq, Repr

/-- Python `set.add`. -/
def hash_insert (hs : List ℕ) (h : ℕ) : List ℕ := if h ∈ hs then hs else hs ++ [h]

/-- Python `set(list)`. -/
def hash_set_of (l : List ℕ) : List ℕ := l.foldl hash_insert []

/-- The new-trade filter of the polling loop: timestamp at least
`last_timestamp` (non-strict) and hash not in the dedup set. -/
def poll_filter (st : PollState) (batch : List PollTrade) : List PollTrade :=
  batch.filter fun t => decide (st.last_timestamp ≤ t.ts) && decide (t.hash ∉ st.last_hashes)

/-- One iteration of the polling loop of `CopyTrader.start`: filter the
fetched batch, sort ascending by timestamp, process every trade while
updating `last_timestamp` and the hash set, then prune the hash set to the
current batch once it exceeds 100 entries. Returns the new state and the
trades passed to `_process_new_trade` this iteration. -/
def poll_step (st : PollState) (batch : List PollTrade) : PollState × List PollTrade :=
  let news := sortAsc (fun a b => decide (a.ts < b.ts)) (poll_filter st batch)
  if news.isEmpty then (st, [])
  else
    let st' := news.foldl
      (fun s t =>
        { last_timestamp := max s.last_timestamp t.ts
          last_hashes := hash_insert s.last_hashes t.hash }) st
    if 100 < st'.last_hashes.length then
      ({ st' with last_hashes := hash_set_of (news.map (·.hash)) }, news)
    else (st', news)

/-- The polling loop over a sequence of fetched batches: final state and
the concatenated stream of trades passed to `_process_new_trade`. -/
def poll_run (st : PollState) : List (List PollTrade) → PollState × List PollTrade
  | [] => (st, [])
  | b :: bs =>
    let r := poll_step st b
    let rest := poll_run r.1 bs
    (rest.1, r.2 ++ rest.2)

/-- The iteration trace: the state at the start of each iteration together
with the trades processed in that iteration. -/
def poll_trace (st : PollState) : List (List PollTrade) → List (PollState × List PollTrade)
  | [] => []
  | b :: bs => (st, (poll_step st b).2) :: poll_trace (poll_step st b).1 bs

/-- C8: `_process_new_trade` executes no copy trade and returns False
whenever a risk check fails: the trade is too old, the daily loss limit is
breached, or - once the market is resolved - the liquidity check, the
slippage check, or the exclusion-list check fails. No order is submitted in
any of these cases. -/
theorem process_new_trade_rejects (cfg : CopyConfig) (st : CTState) (now : ℚ)
    (market_lookup : Option MarketInfo) (have_trader place_ok : Bool) (t : TradeIn)
    (h : check_trade_age cfg now t.timestamp = false ∨
         check_daily_loss cfg st.daily_pnl = false ∨
         (∃ m, market_lookup = some m ∧
           (check_liquidity cfg m = false ∨
            check_slippage cfg m t.price (upperStr t.side) = false ∨
            m.slug ∈ cfg.excluded_markets))) :
    process_new_trade cfg st now market_lookup have_trader place_ok t = (false, []) := by
  unfold process_new_trade
  rcases h with h | h | ⟨m, hm, hcase⟩
  · simp [h]
  · by_cases h1 : check_trade_age cfg now t.timestamp
    · simp [h1, h]
    · simp [h1]
  · subst hm
    by_cases h1 : check_trade_age cfg now t.timestamp
    · by_cases h2 : check_daily_loss cfg st.daily_pnl
      · by_cases h3 : upperStr t.side = "BUY" ∧
            ¬ check_max_positions cfg st.open_positions_count = true
        · simp [h1, h2, h3]
        · rcases hcase with hc | hc | hc
          · simp [h1, h2, h3, hc]
          · by_cases h4 : check_liquidity cfg m
            · simp [h1, h2, h3, h4, hc]
            · simp [h1, h2, h3, h4]
          · by_cases h4 : check_liquidity cfg m
            · by_cases h5 : check_slippage cfg m t.price (upperStr t.side)
              · simp [h1, h2, h3, h4, h5, hc]
              · simp [h1, h2, h3, h4, h5]
            · simp [h1, h2, h3, h4]
      · simp [h1, h2]
    · simp [h1]

/-- Concrete stale trade: observed 100 seconds after its timestamp. -/
def exTradeIn : TradeIn :=
  { conditionId := "c", slug := "m", timestamp := 0, side := "BUY", size := 10, price := 1 / 2 }

/-- C8 witness: with the default 30-second age limit, a 100-second-old trade
is rejected with no order submitted. -/
theorem process_new_trade_rejects_witness :
    process_new_trade CONFIG ⟨0, 0⟩ 100 none true true exTradeIn = (false, []) :=
  process_new_trade_rejects CONFIG ⟨0, 0⟩ 100 none true true exTradeIn
    (Or.inl (by simp [check_trade_age, CONFIG, exTradeIn]; norm_num))

theorem roundTo_abs_sub_le (n : ℕ) (q : ℚ) : |roundTo n q - q| ≤ 1 / (2 * 10 ^ n) := by
  unfold roundTo
  have h10 : (0 : ℚ) < 10 ^ n := by positivity
  have h := abs_sub_round (q * 10 ^ n)
  rw [abs_sub_comm] at h
  have heq : ((round (q * 10 ^ n) : ℤ) : ℚ) / 10 ^ n - q =
      (((round (q * 10 ^ n) : ℤ) : ℚ) - q * 10 ^ n) / 10 ^ n := by
    field_simp
    ring
  rw [heq, abs_div, abs_of_pos h10]
  rw [div_le_div_iff h10 (by positivity)]
  calc |((round (q * 10 ^ n) : ℤ) : ℚ) - q * 10 ^ n| * (2 * 10 ^ n)
      ≤ (1 / 2) * (2 * 10 ^ n) := by
        apply mul_le_mul_of_nonneg_right h
        positivity
    _ = 1 * 10 ^ n := by ring

/-- C9 (amended): position sizing clamps the USD amount into
[min_position_usd, max_position_usd] before converting to a share count,
but the share count is then rounded to 2 decimals, so the USD value of the
returned size respects the bounds only up to price/200 (half a cent of
share size times the price): size*price ≤ max + price/200, and, when
min ≤ max, size*price ≥ min - price/200. -/
theorem calculate_position_size_bounds (cfg : CopyConfig) (ts tp : ℚ) (hp : 0 < tp) :
    calculate_position_size cfg ts tp * tp ≤ cfg.max_position_usd + tp / 200 ∧
    (cfg.min_position_usd ≤ cfg.max_position_usd →
      cfg.min_position_usd - tp / 200 ≤ calculate_position_size cfg ts tp * tp) := by
  have hA : calculate_position_size cfg ts tp =
      roundTo 2 ((min (max (ts * tp * cfg.position_scale) cfg.min_position_usd)
        cfg.max_position_usd) / tp) := by
    unfold calculate_position_size
    dsimp only
    rw [if_pos hp]
  set A := min (max (ts * tp * cfg.position_scale) cfg.min_position_usd)
    cfg.max_position_usd with hAdef
  have hr := roundTo_abs_sub_le 2 (A / tp)
  have hr' : |roundTo 2 (A / tp) - A / tp| ≤ 1 / 200 := by
    calc |roundTo 2 (A / tp) - A / tp| ≤ 1 / (2 * 10 ^ 2) := hr
      _ = 1 / 200 := by norm_num
  have hrb := abs_le.mp hr'
  have hcancel : A / tp * tp = A := div_mul_cancel₀ A (ne_of_gt hp)
  have hub : A ≤ cfg.max_position_usd := min_le_right _ _
  constructor
  · rw [hA]
    have h1 : roundTo 2 (A / tp) ≤ A / tp + 1 / 200 := by linarith [hrb.2]
    calc roundTo 2 (A / tp) * tp ≤ (A / tp + 1 / 200) * tp :=
          mul_le_mul_of_nonneg_right h1 hp.le
      _ = A + tp / 200 := by field_simp; ring
      _ ≤ cfg.max_position_usd + tp / 200 := by linarith
  · intro hmm
    rw [hA]
    have hlb : cfg.min_position_usd ≤ A := by
      refine le_min ?_ hmm
      exact le_max_right _ _
    have h1 : A / tp - 1 / 200 ≤ roundTo 2 (A / tp) := by linarith [hrb.1]
    calc cfg.min_position_usd - tp / 200 ≤ A - tp / 200 := by linarith
      _ = (A / tp - 1 / 200) * tp := by field_simp; ring
      _ ≤ roundTo 2 (A / tp) * tp := mul_le_mul_of_nonneg_right h1 hp.le

/-- C9 witness: the bounds at the default configuration for a concrete
trade of 1 share at price 0.3. -/
theorem calculate_position_size_bounds_witness :
    calculate_position_size CONFIG 1 (3 / 10) * (3 / 10) ≤
      CONFIG.max_position_usd + (3 / 10) / 200 ∧
    CONFIG.min_position_usd - (3 / 10) / 200 ≤
      calculate_position_size CONFIG 1 (3 / 10) * (3 / 10) :=
  ⟨(calculate_position_size_bounds CONFIG 1 (3 / 10) (by norm_num)).1,
   (calculate_position_size_bounds CONFIG 1 (3 / 10) (by norm_num)).2
     (by norm_num [CONFIG])⟩

/-- C9 counterexample: the claim promises size*price ≥ min_position_usd
whenever min ≤ max. At the default configuration, copying a 1-share trade
at price 0.3 clamps the USD amount to exactly min_position_usd = 1, giving
a share size of 10/3 which rounds down to 3.33; its USD value 0.999 is
strictly below the promised minimum. -/
theorem calculate_position_size_cex :
    CONFIG.min_position_usd ≤ CONFIG.max_position_usd ∧
    calculate_position_size CONFIG 1 (3 / 10) * (3 / 10) < CONFIG.min_position_usd := by
  have h1 : calculate_position_size CONFIG 1 (3 / 10) = roundTo 2 (10 / 3) := by
    unfold calculate_position_size
    dsimp only
    rw [if_pos (by norm_num : (0 : ℚ) < 3 / 10)]
    norm_num [CONFIG, min_def, max_def]
  have h2 : roundTo 2 (10 / 3) = 333 / 100 := by
    unfold roundTo
    rw [show ((10 : ℚ) / 3 * 10 ^ 2) = 1000 / 3 by norm_num]
    rw [round_eq]
    rw [show ((1000 : ℚ) / 3 + 1 / 2) = 2003 / 6 by norm_num]
    rw [show ⌊(2003 : ℚ) / 6⌋ = 333 by norm_num [Int.floor_eq_iff]]
    norm_num
  rw [h1, h2]
  constructor
  · norm_num [CONFIG]
  · norm_num [CONFIG]

/-- C10 (amended): the slippage check fails open - missing, malformed or
empty price data passes it - and the liquidity check fails open only on a
value `float()` raises on; a missing liquidity key defaults to 0, which
passes the check iff `min_liquidity ≤ 0` (with the configured 5000 the
trade is blocked, not allowed). -/
theorem risk_checks_fail_open (cfg : CopyConfig) (m : MarketInfo) (tp : ℚ) (side : String) :
    (m.outcomePrices = .bad → check_slippage cfg m tp side = true) ∧
    (m.clobTokenIds = .bad → check_slippage cfg m tp side = true) ∧
    (m.outcomes = .bad → check_slippage cfg m tp side = true) ∧
    (m.outcomePrices = .ok [] → check_slippage cfg m tp side = true) ∧
    (m.liquidity = .bad → check_liquidity cfg m = true) ∧
    (m.liquidity = .absent → (check_liquidity cfg m = true ↔ cfg.min_liquidity ≤ 0)) := by
  obtain ⟨liq, ctid, outs, prices, slug⟩ := m
  refine ⟨?_, ?_, ?_, ?_, ?_, ?_⟩
  · intro h
    simp only at h
    subst h
    cases ctid <;> cases outs <;> rfl
  · intro h
    simp only at h
    subst h
    rfl
  · intro h
    simp only at h
    subst h
    cases ctid <;> rfl
  · intro h
    simp only at h
    subst h
    cases ctid <;> cases outs <;> rfl
  · intro h
    simp only at h
    subst h
    rfl
  · intro h
    simp only at h
    subst h
    simp [check_liquidity, not_lt]

/-- Market dict with no liquidity key and empty token/price lists. -/
def exMarketNoLiq : MarketInfo :=
  { liquidity := .absent, clobTokenIds := .ok [], outcomes := .ok [],
    outcomePrices := .ok [], slug := "m" }

/-- Market dict whose liquidity value makes `float()` raise. -/
def exMarketBadLiq : MarketInfo :=
  { liquidity := .bad, clobTokenIds := .ok [], outcomes := .ok [],
    outcomePrices := .ok [], slug := "m" }

/-- C10 counterexample: the claim says a market with missing liquidity data
passes `_check_liquidity`. Under the default configuration
(min_liquidity = 5000), a market-info dict without a `liquidity` key is
parsed as liquidity 0 and the check returns False, blocking the trade. -/
theorem check_liquidity_missing_cex :
    check_liquidity CONFIG exMarketNoLiq = false := by
  simp only [check_liquidity, exMarketNoLiq, CONFIG, Bool.not_eq_false', decide_eq_true_eq]
  norm_num

/-- C10 witness: the amended theorem applied to the malformed-liquidity
market, whose check does pass. -/
theorem risk_checks_fail_open_witness :
    check_slippage CONFIG exMarketBadLiq (1 / 2) "BUY" = true ∧
    check_liquidity CONFIG exMarketBadLiq = true :=
  ⟨(risk_checks_fail_open CONFIG exMarketBadLiq (1 / 2) "BUY").2.2.2.1 rfl,
   (risk_checks_fail_open CONFIG exMarketBadLiq (1 / 2) "BUY").2.2.2.2.1 rfl⟩

/-! Ordering facts about the polling loop. -/

theorem pairwise_insertAsc_poll {x : PollTrade} {l : List PollTrade}
    (h : l.Pairwise fun a b => a.ts ≤ b.ts) :
    (insertAsc (fun a b => decide (a.ts < b.ts)) x l).Pairwise fun a b => a.ts ≤ b.ts := by
  induction l with
  | nil => simp [insertAsc]
  | cons y ys ih =>
    rw [List.pairwise_cons] at h
    by_cases hlt : x.ts < y.ts
    · simp only [insertAsc, hlt, decide_True, if_true]
      refine List.Pairwise.cons ?_ (List.Pairwise.cons h.1 h.2)
      intro z hz
      rcases List.mem_cons.mp hz with rfl | hz
      · exact hlt.le
      · exact hlt.le.trans (h.1 z hz)
    · simp only [insertAsc, hlt, decide_False, Bool.false_eq_true, if_false]
      refine List.Pairwise.cons ?_ (ih h.2)
      intro z hz
      rcases mem_insertAsc.mp hz with rfl | hz
      · exact not_lt.mp hlt
      · exact h.1 z hz

theorem pairwise_sortAsc_poll (l : List PollTrade) :
    (sortAsc (fun a b => decide (a.ts < b.ts)) l).Pairwise fun a b => a.ts ≤ b.ts := by
  have haux : ∀ (xs acc : List PollTrade), (acc.Pairwise fun a b => a.ts ≤ b.ts) →
      (xs.foldl (fun a e => insertAsc (fun a b => decide (a.ts < b.ts)) e a) acc).Pairwise
        fun a b => a.ts ≤ b.ts := by
    intro xs
    induction xs with
    | nil => intro acc hacc; simpa using hacc
    | cons z zs ih =>
      intro acc hacc
      exact ih _ (pairwise_insertAsc_poll hacc)
  exact haux l [] (by simp)

theorem poll_fold_lastTs (news : List PollTrade) : ∀ st : PollState,
    st.last_timestamp ≤
      (news.foldl (fun s t =>
        { last_timestamp := max s.last_timestamp t.ts
          last_hashes := hash_insert s.last_hashes t.hash }) st).last_timestamp ∧
    ∀ t ∈ news, t.ts ≤
      (news.foldl (fun s t =>
        { last_timestamp := max s.last_timestamp t.ts
          last_hashes := hash_insert s.last_hashes t.hash }) st).last_timestamp := by
  induction news with
  | nil => intro st; simp
  | cons r rs ih =>
    intro st
    have h1 := ih { last_timestamp := max st.last_timestamp r.ts
                    last_hashes := hash_insert st.last_hashes r.hash }
    constructor
    · exact le_trans (le_max_left _ _) h1.1
    · intro t ht
      rcases List.mem_cons.mp ht with rfl | ht
      · exact le_trans (le_max_right _ _) h1.1
      · exact h1.2 t ht

theorem poll_step_spec (st : PollState) (b : List PollTrade) :
    (∀ t ∈ (poll_step st b).2,
      st.last_timestamp ≤ t.ts ∧ t.hash ∉ st.last_hashes) ∧
    ((poll_step st b).2).Pairwise (fun a b => a.ts ≤ b.ts) ∧
    st.last_timestamp ≤ (poll_step st b).1.last_timestamp ∧
    (∀ t ∈ (poll_step st b).2, t.ts ≤ (poll_step st b).1.last_timestamp) := by
  unfold poll_step
  by_cases hne : (sortAsc (fun a b => decide (a.ts < b.ts)) (poll_filter st b)).isEmpty
  · simp only [hne, if_true]
    simp
  · simp only [hne, Bool.false_eq_true, if_false]
    have hmem : ∀ t ∈ sortAsc (fun a b => decide (a.ts < b.ts)) (poll_filter st b),
        st.last_timestamp ≤ t.ts ∧ t.hash ∉ st.last_hashes := by
      intro t ht
      have := mem_sortAsc.mp ht
      unfold poll_filter at this
      have := List.mem_filter.mp this
      simpa using this.2
    have hfold := poll_fold_lastTs (sortAsc (fun a b => decide (a.ts < b.ts))
      (poll_filter st b)) st
    by_cases hcard : 100 <
        ((sortAsc (fun a b => decide (a.ts < b.ts)) (poll_filter st b)).foldl
          (fun s t =>
            { last_timestamp := max s.last_timestamp t.ts
              last_hashes := hash_insert s.last_hashes t.hash }) st).last_hashes.length
    · simp only [hcard, if_true]
      exact ⟨hmem, pairwise_sortAsc_poll _, hfold.1, hfold.2⟩
    · simp only [hcard, if_false]
      exact ⟨hmem, pairwise_sortAsc_poll _, hfold.1, hfold.2⟩

theorem poll_run_spec (bs : List (List PollTrade)) : ∀ init : PollState,
    ((poll_run init bs).2).Pairwise (fun a b => a.ts ≤ b.ts) ∧
    init.last_timestamp ≤ (poll_run init bs).1.last_timestamp ∧
    (∀ t ∈ (poll_run init bs).2,
      init.last_timestamp ≤ t.ts ∧ t.ts ≤ (poll_run init bs).1.last_timestamp) := by
  induction bs with
  | nil => intro init; simp [poll_run]
  | cons b bs ih =>
    intro init
    have hstep := poll_step_spec init b
    have hrest := ih (poll_step init b).1
    have hout : (poll_run init (b :: bs)).2 =
        (poll_step init b).2 ++ (poll_run (poll_step init b).1 bs).2 := rfl
    have hfin : (poll_run init (b :: bs)).1 = (poll_run (poll_step init b).1 bs).1 := rfl
    refine ⟨?_, ?_, ?_⟩
    · rw [hout]
      rw [List.pairwise_append]
      refine ⟨hstep.2.1, hrest.1, ?_⟩
      intro a ha c hc
      have h1 : a.ts ≤ (poll_step init b).1.last_timestamp := hstep.2.2.2 a ha
      have h2 : (poll_step init b).1.last_timestamp ≤ c.ts := (hrest.2.2 c hc).1
      exact h1.trans h2
    · rw [hfin]
      exact hstep.2.2.1.trans hrest.2.1
    · intro t ht
      rw [hout] at ht
      rw [hfin]
      rcases List.mem_append.mp ht with ht | ht
      · exact ⟨(hstep.1 t ht).1,
          (hstep.2.2.2 t ht).trans hrest.2.1⟩
      · exact ⟨hstep.2.2.1.trans (hrest.2.2 t ht).1, (hrest.2.2 t ht).2⟩

/-- C7 (amended): what the polling loop's dedup actually guarantees. Every
trade passed to `_process_new_trade` in an iteration has a hash absent from
the dedup set and a timestamp at least the iteration's `last_timestamp`
(both taken at the iteration start); across the whole run the processed
stream is nondecreasing in timestamp and bounded by the final
`last_timestamp`. Once-only processing of a hash is NOT guaranteed: a
duplicated hash inside one fetched batch is processed twice (the filter
runs once per batch), and after the hash set is pruned past 100 entries a
trade tied at the maximal timestamp can be reprocessed. -/
theorem poll_loop_dedup (init : PollState) (bs : List (List PollTrade)) :
    (∀ e ∈ poll_trace init bs, ∀ t ∈ e.2,
      e.1.last_timestamp ≤ t.ts ∧ t.hash ∉ e.1.last_hashes) ∧
    ((poll_run init bs).2).Pairwise (fun a b => a.ts ≤ b.ts) ∧
    (∀ t ∈ (poll_run init bs).2, t.ts ≤ (poll_run init bs).1.last_timestamp) := by
  refine ⟨?_, (poll_run_spec bs init).1, fun t ht => ((poll_run_spec bs init).2.2 t ht).2⟩
  induction bs generalizing init with
  | nil => simp [poll_trace]
  | cons b bs ih =>
    intro e he
    unfold poll_trace at he
    rcases List.mem_cons.mp he with rfl | he
    · exact poll_step_spec init b |>.1
    · exact ih (poll_step init b).1 e he

/-- C7 counterexample: the claim promises that no trade (identified by its
transaction hash) is ever passed to `_process_new_trade` twice. A fetched
batch containing the same transaction hash twice defeats the dedup filter,
which is computed once per batch: both rows are processed, so the processed
stream contains hash 1 twice. -/
theorem poll_loop_dedup_cex :
    ¬ ((poll_run ⟨0, []⟩ [[⟨5, 1⟩, ⟨5, 1⟩]]).2.map (·.hash)).Nodup := by decide

/-- C7 witness: the amended theorem applied to a one-batch run. -/
theorem poll_loop_dedup_witness :
    (0 : ℕ) ≤ (5 : ℕ) ∧ (1 : ℕ) ∉ ([] : List ℕ) :=
  (poll_loop_dedup ⟨0, []⟩ [[⟨5, 1⟩]]).1 (⟨0, []⟩, [⟨5, 1⟩]) (by decide) ⟨5, 1⟩ (by decide)

end PMScan
